import Mathlib

/-!
Verification of the `snow` package: snowflake-style 64-bit keys with a
base-32 text codec and a sequential key generator.  Strings are embedded as
lists of byte values; `uint64` arithmetic is `Nat` arithmetic reduced
modulo `2 ^ 64` where overflow is possible.
-/

set_option maxRecDepth 8000

namespace Snow

/-- Number of timestamp bits in a key. -/
def timestampBits : Nat := 42

/-- Number of non-timestamp (application + sequence) bits in a key. -/
def randomBits : Nat := 22

/-- Largest timestamp value storable in a key. -/
def maxTimeStamp : Nat := 2 ^ timestampBits - 1

/-- Maximum number of bits for the application-defined part. -/
def MaxAppBits : Nat := 20

/-- Keys are 64-bit unsigned integers, embedded as naturals; theorems carry
a `< 2 ^ 64` bound where it matters. -/
abbrev Key := Nat

/-- The default invalid key. -/
def Invalid : Key := 0

/-- Milliseconds of 2024-06-01 UTC, subtracted from clock readings. -/
def epochAdjust : Nat := 1717200000000

/-- The encoding alphabet "0123456789ABCDEFGHJKMNPQRSTVWXYZ" as bytes. -/
def base32chars : List Nat :=
  [48, 49, 50, 51, 52, 53, 54, 55, 56, 57,
   65, 66, 67, 68, 69, 70, 71, 72, 74, 75, 77, 78,
   80, 81, 82, 83, 84, 86, 87, 88, 89, 90]

/-- The decode table of `Parse`, indexed by `ch - '0'` for bytes
0x30‥0x7f; entries are Go `int8` values, `-1` marking a non-digit.
It has exactly 80 entries. -/
def decode32map : List Int :=
  [0, 1, 2, 3, 4, 5, 6, 7, 8, 9, -1, -1, -1, -1, -1, -1,
   -1, 10, 11, 12, 13, 14, 15, 16, 17, 1, 18, 19, 1, 20, 21, 0,
   22, 23, 24, 25, 26, 36, 27, 28, 29, 30, 31, -1, -1, -1, -1, -1,
   -1, 10, 11, 12, 13, 14, 15, 16, 17, 1, 18, 19, 1, 20, 21, 0,
   22, 23, 24, 25, 26, -1, 27, 28, 29, 30, 31, -1, -1, -1, -1, -1]

/-- Outcome of handling one input byte in `Parse`: an accepted base-32
digit value, a byte triggering the non-base-32 error, or an out-of-range
access into `decode32map` (a Go runtime fault). -/
inductive CharStep where
  | digit : Nat → CharStep
  | bad : CharStep
  | oob : CharStep
deriving DecidableEq

/-- One byte of `Parse`'s loop body, apart from separator skipping and the
accumulator update: the `'0' <= ch && ch <= 128` range test, the
`decode32map[ch-'0']` lookup, and the `0 <= val && val <= 31` filter. -/
def charStep (ch : Nat) : CharStep :=
  if 48 ≤ ch ∧ ch ≤ 128 then
    match decode32map.get? (ch - 48) with
    | some val => if 0 ≤ val ∧ val ≤ 31 then .digit val.toNat else .bad
    | none => .oob
  else .bad

/-- Result of `Parse`: success, the non-base-32 error (carrying the
`result` value that the Go function returns beside the error), the
does-not-fit error (carrying `Invalid`), or the out-of-bounds table
access. -/
inductive ParseOutcome where
  | ok : Key → ParseOutcome
  | errChar : Key → ParseOutcome
  | errFit : Key → ParseOutcome
  | oob : ParseOutcome
deriving DecidableEq

/-- The loop of `Parse` over the remaining bytes; `len` is the length of
the whole input, `i` the current index, `r` the accumulator. -/
def parseLoop (len : Nat) : Nat → Nat → List Nat → ParseOutcome
  | _, r, [] => .ok r
  | i, r, ch :: rest =>
    if ch = 45 ∧ 0 < i ∧ i + 1 < len then parseLoop len (i + 1) r rest
    else
      match charStep ch with
      | .digit val =>
        if r &&& 0xF800000000000000 ≠ 0 then .errFit Invalid
        else parseLoop len (i + 1) (((r <<< 5) % 2 ^ 64) ||| val) rest
      | .bad => .errChar r
      | .oob => .oob

/-- `Parse` on a byte sequence. -/
def Parse (s : List Nat) : ParseOutcome := parseLoop s.length 0 0 s

/-- Fuel-driven helper for `reverseEncode`; any fuel at least `u` gives the
full digit list. -/
def reverseEncodeAux : Nat → Nat → List Nat
  | 0, _ => []
  | fuel + 1, u =>
    if u = 0 then [] else base32chars.getD (u % 32) 0 :: reverseEncodeAux fuel (u / 32)

/-- `reverseEncode`: the base-32 digits of the key as bytes, least
significant first (the filled prefix of the Go `temp` array). -/
def reverseEncode (key : Nat) : List Nat := reverseEncodeAux key key

/-- `String`: shortest base-32 representation; `[48]` (i.e. "0") for the
zero key. -/
def Key.String (key : Nat) : List Nat :=
  if key = 0 then [48] else (reverseEncode key).reverse

/-- Separator masks of `Format`, indexed by group size 0‥12: bit `j` says
whether a separator follows the `(j+1)`-st emitted digit (digits are
emitted most significant first). -/
def sepMask : List Nat :=
  [0b0000000000000,
   0b0111111111111,
   0b0010101010101,
   0b0001001001001,
   0b0000100010001,
   0b0000010000100,
   0b0000001000001,
   0b0000000100000,
   0b0000000010000,
   0b0000000001000,
   0b0000000000100,
   0b0000000000010,
   0b0000000000001]

/-- The emission loop of `Format`: walk the padded digit bytes most
significant first, appending the separator after a digit whenever the low
bit of the walking mask is set. -/
def formatLoop (sep : List Nat) : List Nat → Nat → List Nat
  | [], _ => []
  | b :: rest, mask =>
    b :: ((if mask % 2 = 1 then sep else []) ++ formatLoop sep rest (mask / 2))

/-- `Format`: all 13 digits of the key, zero padded, with separators per
`sepMask`; group sizes below one count as one, and an empty separator or a
group size at least 13 (the length of the Go `temp` array) yields the bare
digits. -/
def Key.Format (key : Nat) (groupSize : Int) (sep : List Nat) : List Nat :=
  let gs : Nat := if groupSize ≤ 0 then 1 else groupSize.toNat
  let temp := reverseEncode key ++ List.replicate (13 - (reverseEncode key).length) 48
  if sep = [] ∨ 13 ≤ gs then temp.reverse
  else formatLoop sep temp.reverse (sepMask.getD gs 0)

/-- Generator state.  The mutex is not modelled: each `Create` below is one
attempt of the retry loop, sequentialised, with the clock reading passed
explicitly.  The `uint` difference `randomBits - appBits` is natural
subtraction here, faithful for the `appBits ≤ MaxAppBits ≤ randomBits`
range that `New` admits. -/
structure Generator where
  lastTS : Nat
  nextSeq : Nat
  appBits : Nat
  appMax : Nat
deriving DecidableEq

/-- `New`: build a generator; `none` models the fatal case
`appBits > MaxAppBits`. -/
def New (appBits : Nat) : Option Generator :=
  if MaxAppBits < appBits then none else some ⟨0, 0, appBits, 1 <<< appBits⟩

/-- The key assembly expression of `Create`:
`(ts << randomBits) | (appID << (randomBits-appBits)) | seq` in 64-bit
arithmetic. -/
def makeKey (appBits ts appID seq : Nat) : Nat :=
  ((((ts <<< randomBits) % 2 ^ 64) |||
    ((appID <<< (randomBits - appBits)) % 2 ^ 64)) ||| seq) % 2 ^ 64

/-- Result of one `Create` attempt: a key and the updated state, a retry
(sequence numbers for the current millisecond exhausted; Go sleeps and
loops), or one of the two fatal conditions (Go panics). -/
inductive CreateResult where
  | ok : Key → Generator → CreateResult
  | retry : Generator → CreateResult
  | fatalApp : CreateResult
  | fatalTS : CreateResult
deriving DecidableEq

/-- Shared tail of a `Create` attempt once the sequence number is drawn
and the state updated: the sequence-range test, the timestamp test
(`milli - epochAdjust` in wrapping `uint64` arithmetic), and the key
assembly. -/
def createTail (gen' : Generator) (appID milli seq : Nat) : CreateResult :=
  if seq < 1 <<< (randomBits - gen'.appBits) then
    if maxTimeStamp < (milli + 2 ^ 64 - epochAdjust) % 2 ^ 64 then .fatalTS
    else .ok (makeKey gen'.appBits ((milli + 2 ^ 64 - epochAdjust) % 2 ^ 64) appID seq) gen'
  else .retry gen'

/-- One attempt of `Create` at clock reading `milli`
(Go: `uint64(time.Now().UnixMilli())`). -/
def Generator.Create (gen : Generator) (appID : Nat) (milli : Nat) : CreateResult :=
  if 0 < appID ∧ gen.appMax ≤ appID then .fatalApp
  else if gen.lastTS < milli then
    createTail ⟨milli, 1, gen.appBits, gen.appMax⟩ appID milli 0
  else
    createTail ⟨gen.lastTS, gen.nextSeq + 1, gen.appBits, gen.appMax⟩ appID milli gen.nextSeq

/-- `AppID`: the application part of a key, per the generator's bit
width. -/
def Generator.AppID (gen : Generator) (key : Nat) : Nat :=
  if 0 < gen.appBits then (key &&& 0x3fffff) >>> (randomBits - gen.appBits) else 0

/-- `KeySeq`: the sequence part of a key, per the generator's bit width. -/
def Generator.KeySeq (gen : Generator) (key : Nat) : Nat :=
  (key &&& 0x3fffff) &&& (1 <<< (randomBits - gen.appBits) - 1)

/-- `MaxAppID`: the largest admissible application value. -/
def Generator.MaxAppID (gen : Generator) : Nat := gen.appMax - 1

/-- Does a `Create` attempt abort (a Go panic)?  Retrying is not an
abort. -/
def isAbort : CreateResult → Bool
  | .fatalApp => true
  | .fatalTS => true
  | _ => false

/-- Run one `Create` per clock reading in `ms`, all attempts succeeding. -/
def CreateRun (gen : Generator) (appID : Nat) : List Nat → Option (List Nat × Generator)
  | [] => some ([], gen)
  | m :: ms =>
    match gen.Create appID m with
    | .ok k gen' =>
      match CreateRun gen' appID ms with
      | some (ks, genF) => some (k :: ks, genF)
      | none => none
    | _ => none

/-! ## Auxiliary, spec-side definitions -/

/-- Fuel-driven helper for `digitsLSD`. -/
def digitsLSDAux : Nat → Nat → List Nat
  | 0, _ => []
  | fuel + 1, u => if u = 0 then [] else u % 32 :: digitsLSDAux fuel (u / 32)

/-- Base-32 digit values of a natural number, least significant first. -/
def digitsLSD (u : Nat) : List Nat := digitsLSDAux u u

/-- The byte encoding a digit value. -/
def byteOf (d : Nat) : Nat := base32chars.getD d 0

/-- Accumulate base-32 digit values (most significant first) onto `r`,
exactly as `Parse`'s accumulator does. -/
def accVal (r : Nat) (ds : List Nat) : Nat := ds.foldl (fun a d => a * 32 + d) r

/-- Does `p` begin the list `l`? -/
def beginsWith : List Nat → List Nat → Bool
  | [], _ => true
  | _ :: _, [] => false
  | p :: ps, x :: xs => p = x && beginsWith ps xs

/-- Fuel-driven helper for `stripAll`; any fuel at least the length of the
list gives the stripped list. -/
def stripAllAux (sep : List Nat) : Nat → List Nat → List Nat
  | _, [] => []
  | 0, l => l
  | fuel + 1, x :: xs =>
    if sep ≠ [] ∧ beginsWith sep (x :: xs)
    then stripAllAux sep fuel (List.drop sep.length (x :: xs))
    else x :: stripAllAux sep fuel xs

/-- Remove every occurrence of `sep`, leftmost first: the effect of the Go
idiom `strings.Join(strings.Split(s, sep), "")`.  Splitting at the empty
separator yields the characters, so removal is then the identity. -/
def stripAll (sep l : List Nat) : List Nat := stripAllAux sep l.length l

/-- The 13 zero-padded digit bytes of a key, most significant first. -/
def padded13 (key : Nat) : List Nat :=
  (reverseEncode key ++ List.replicate (13 - (reverseEncode key).length) 48).reverse

/-- Modelled from the spec (amended reading): walking the 13 padded digits
from the most significant one, insert the separator after every digit that
has a positive multiple of `gs` digits to its right, i.e. groups of `gs`
digits counted from the least significant digit.  `i` is the index from
the left. -/
def specInsertLSD (gs : Nat) (sep : List Nat) : Nat → List Nat → List Nat
  | _, [] => []
  | i, b :: rest =>
    b :: ((if (12 - i) % gs = 0 ∧ i < 12 then sep else []) ++
          specInsertLSD gs sep (i + 1) rest)

/-- Modelled from the spec's words for claim C5: insert the separator
after digit groups of `gs` consecutive digits counted from the most
significant digit, i.e. after every `gs`-th digit from the left. -/
def specInsertMSD (gs : Nat) (sep : List Nat) : Nat → List Nat → List Nat
  | _, [] => []
  | i, b :: rest =>
    b :: ((if (i + 1) % gs = 0 ∧ i < 12 then sep else []) ++
          specInsertMSD gs sep (i + 1) rest)

/-- The spec's description of `Format`, with most-significant grouping as
claim C5 states it. -/
def specFormatMSD (key : Nat) (groupSize : Int) (sep : List Nat) : List Nat :=
  let gs : Nat := if groupSize ≤ 0 then 1 else groupSize.toNat
  if sep = [] ∨ 13 ≤ gs then padded13 key
  else specInsertMSD gs sep 0 (padded13 key)

/-- The amended description of `Format`: least-significant grouping. -/
def specFormatLSD (key : Nat) (groupSize : Int) (sep : List Nat) : List Nat :=
  let gs : Nat := if groupSize ≤ 0 then 1 else groupSize.toNat
  if sep = [] ∨ 13 ≤ gs then padded13 key
  else specInsertLSD gs sep 0 (padded13 key)

/-- Fold a lower-case letter byte to its upper-case counterpart. -/
def foldCase (c : Nat) : Nat := if 97 ≤ c ∧ c ≤ 122 then c - 32 else c

/-- Canonical representative of a byte under the decode table's folding:
lower case folds to upper case; the look-alike letters I and L fold to the
digit 1, O to the digit 0. -/
def canonByte (c : Nat) : Nat :=
  if foldCase c = 73 ∨ foldCase c = 76 then 49
  else if foldCase c = 79 then 48
  else foldCase c

/-! ## Unfolding lemmas for the fuel-driven definitions -/

lemma reverseEncodeAux_zero (fuel : Nat) : reverseEncodeAux fuel 0 = [] := by
  cases fuel <;> simp [reverseEncodeAux]

lemma reverseEncodeAux_congr :
    ∀ fuel fuel' u, u ≤ fuel → u ≤ fuel' →
      reverseEncodeAux fuel u = reverseEncodeAux fuel' u := by
  intro fuel
  induction fuel with
  | zero =>
    intro fuel' u h1 _
    have : u = 0 := Nat.le_zero.mp h1
    subst this
    rw [reverseEncodeAux_zero, reverseEncodeAux_zero]
  | succ f ih =>
    intro fuel' u h1 h2
    rcases Nat.eq_zero_or_pos u with hu | hu
    · subst hu
      rw [reverseEncodeAux_zero, reverseEncodeAux_zero]
    · cases fuel' with
      | zero => omega
      | succ f' =>
        have hne : u ≠ 0 := Nat.pos_iff_ne_zero.mp hu
        have hd : u / 32 < u := Nat.div_lt_self hu (by norm_num)
        simp only [reverseEncodeAux, if_neg hne]
        rw [ih f' (u / 32) (by omega) (by omega)]

lemma reverseEncode_unfold (u : Nat) :
    reverseEncode u =
      if u = 0 then [] else byteOf (u % 32) :: reverseEncode (u / 32) := by
  rcases Nat.eq_zero_or_pos u with hu | hu
  · subst hu; rfl
  · have hne : u ≠ 0 := Nat.pos_iff_ne_zero.mp hu
    have hd : u / 32 < u := Nat.div_lt_self hu (by norm_num)
    cases u with
    | zero => omega
    | succ n =>
      show reverseEncodeAux (n + 1) (n + 1) = _
      simp only [reverseEncodeAux, if_neg hne, byteOf]
      rw [reverseEncodeAux_congr n ((n + 1) / 32) ((n + 1) / 32) (by omega) le_rfl]
      rfl

lemma digitsLSDAux_zero (fuel : Nat) : digitsLSDAux fuel 0 = [] := by
  cases fuel <;> simp [digitsLSDAux]

lemma digitsLSDAux_congr :
    ∀ fuel fuel' u, u ≤ fuel → u ≤ fuel' →
      digitsLSDAux fuel u = digitsLSDAux fuel' u := by
  intro fuel
  induction fuel with
  | zero =>
    intro fuel' u h1 _
    have : u = 0 := Nat.le_zero.mp h1
    subst this
    rw [digitsLSDAux_zero, digitsLSDAux_zero]
  | succ f ih =>
    intro fuel' u h1 h2
    rcases Nat.eq_zero_or_pos u with hu | hu
    · subst hu
      rw [digitsLSDAux_zero, digitsLSDAux_zero]
    · cases fuel' with
      | zero => omega
      | succ f' =>
        have hne : u ≠ 0 := Nat.pos_iff_ne_zero.mp hu
        have hd : u / 32 < u := Nat.div_lt_self hu (by norm_num)
        simp only [digitsLSDAux, if_neg hne]
        rw [ih f' (u / 32) (by omega) (by omega)]

lemma digitsLSD_unfold (u : Nat) :
    digitsLSD u = if u = 0 then [] else u % 32 :: digitsLSD (u / 32) := by
  rcases Nat.eq_zero_or_pos u with hu | hu
  · subst hu; rfl
  · have hne : u ≠ 0 := Nat.pos_iff_ne_zero.mp hu
    have hd : u / 32 < u := Nat.div_lt_self hu (by norm_num)
    cases u with
    | zero => omega
    | succ n =>
      show digitsLSDAux (n + 1) (n + 1) = _
      simp only [digitsLSDAux, if_neg hne]
      rw [digitsLSDAux_congr n ((n + 1) / 32) ((n + 1) / 32) (by omega) le_rfl]
      rfl

lemma reverseEncode_eq_digits (u : Nat) :
    reverseEncode u = (digitsLSD u).map byteOf := by
  induction u using Nat.strong_induction_on with
  | _ u ih =>
    rw [reverseEncode_unfold, digitsLSD_unfold]
    rcases Nat.eq_zero_or_pos u with hu | hu
    · simp [hu]
    · have hne : u ≠ 0 := Nat.pos_iff_ne_zero.mp hu
      have hd : u / 32 < u := Nat.div_lt_self hu (by norm_num)
      simp only [if_neg hne, List.map_cons]
      rw [ih (u / 32) hd]

lemma stripAllAux_nil (sep : List Nat) (fuel : Nat) :
    stripAllAux sep fuel [] = [] := by
  cases fuel <;> simp [stripAllAux]

lemma stripAllAux_congr (sep : List Nat) :
    ∀ fuel fuel' (l : List Nat), l.length ≤ fuel → l.length ≤ fuel' →
      stripAllAux sep fuel l = stripAllAux sep fuel' l := by
  intro fuel
  induction fuel with
  | zero =>
    intro fuel' l h1 _
    have : l = [] := List.length_eq_zero.mp (Nat.le_zero.mp h1)
    subst this
    rw [stripAllAux_nil, stripAllAux_nil]
  | succ f ih =>
    intro fuel' l h1 h2
    cases l with
    | nil => rw [stripAllAux_nil, stripAllAux_nil]
    | cons x xs =>
      cases fuel' with
      | zero => simp at h2
      | succ f' =>
        simp only [stripAllAux]
        split
        · rename_i hcond
          have hsep : 0 < sep.length := List.length_pos.mpr hcond.1
          have hlen : (List.drop sep.length (x :: xs)).length ≤ f := by
            simp only [List.length_drop, List.length_cons] at *
            omega
          have hlen' : (List.drop sep.length (x :: xs)).length ≤ f' := by
            simp only [List.length_drop, List.length_cons] at *
            omega
          rw [ih f' _ hlen hlen']
        · simp only [List.length_cons] at h1 h2
          rw [ih f' xs (by omega) (by omega)]

lemma stripAll_nil (sep : List Nat) : stripAll sep [] = [] := rfl

lemma stripAll_cons (sep : List Nat) (x : Nat) (xs : List Nat) :
    stripAll sep (x :: xs) =
      if sep ≠ [] ∧ beginsWith sep (x :: xs)
      then stripAll sep (List.drop sep.length (x :: xs))
      else x :: stripAll sep xs := by
  show stripAllAux sep (x :: xs).length (x :: xs) = _
  simp only [List.length_cons, stripAllAux]
  split
  · rename_i hcond
    have hsep : 0 < sep.length := List.length_pos.mpr hcond.1
    exact stripAllAux_congr sep xs.length (List.drop sep.length (x :: xs)).length
      (List.drop sep.length (x :: xs))
      (by simp only [List.length_drop, List.length_cons]; omega) le_rfl
  · rfl

/-! ## Accumulator arithmetic -/

lemma accVal_nil (r : Nat) : accVal r [] = r := rfl

lemma accVal_cons (r d : Nat) (ds : List Nat) :
    accVal r (d :: ds) = accVal (r * 32 + d) ds := rfl

lemma accVal_append (r : Nat) (l1 l2 : List Nat) :
    accVal r (l1 ++ l2) = accVal (accVal r l1) l2 :=
  List.foldl_append _ _ _ _

lemma le_accVal : ∀ (ds : List Nat) (r : Nat), r ≤ accVal r ds := by
  intro ds
  induction ds with
  | nil => intro r; exact le_rfl
  | cons d ds ih =>
    intro r
    calc r ≤ r * 32 + d := by omega
    _ ≤ accVal (r * 32 + d) ds := ih _
    _ = accVal r (d :: ds) := rfl

lemma accVal_lower : ∀ (ds : List Nat) (r : Nat), r * 32 ^ ds.length ≤ accVal r ds := by
  intro ds
  induction ds with
  | nil => intro r; simp [accVal_nil]
  | cons d ds ih =>
    intro r
    calc r * 32 ^ (d :: ds).length = (r * 32) * 32 ^ ds.length := by
          simp only [List.length_cons]
          rw [pow_succ]
          ring
    _ ≤ (r * 32 + d) * 32 ^ ds.length := by
          exact Nat.mul_le_mul_right _ (by omega)
    _ ≤ accVal (r * 32 + d) ds := ih _
    _ = accVal r (d :: ds) := rfl

/-! ## Digit list facts -/

lemma digitsLSD_mem_lt (u : Nat) : ∀ d ∈ digitsLSD u, d < 32 := by
  induction u using Nat.strong_induction_on with
  | _ u ih =>
    rw [digitsLSD_unfold]
    rcases Nat.eq_zero_or_pos u with hu | hu
    · simp [hu]
    · have hne : u ≠ 0 := Nat.pos_iff_ne_zero.mp hu
      have hd : u / 32 < u := Nat.div_lt_self hu (by norm_num)
      simp only [if_neg hne]
      intro d hdm
      rcases List.mem_cons.mp hdm with h | h
      · subst h; exact Nat.mod_lt _ (by norm_num)
      · exact ih (u / 32) hd d h

lemma accVal_digitsLSD (u : Nat) :
    ∀ r, accVal r (digitsLSD u).reverse = r * 32 ^ (digitsLSD u).length + u := by
  induction u using Nat.strong_induction_on with
  | _ u ih =>
    intro r
    rcases Nat.eq_zero_or_pos u with hu | hu
    · subst hu; simp [digitsLSD, digitsLSDAux_zero, accVal_nil]
    · have hne : u ≠ 0 := Nat.pos_iff_ne_zero.mp hu
      have hd : u / 32 < u := Nat.div_lt_self hu (by norm_num)
      rw [digitsLSD_unfold]
      simp only [if_neg hne, List.reverse_cons, List.length_cons]
      rw [accVal_append, ih (u / 32) hd r]
      show (r * 32 ^ (digitsLSD (u / 32)).length + u / 32) * 32 + u % 32 = _
      have hmod := Nat.div_add_mod u 32
      rw [pow_succ]
      ring_nf
      omega

lemma digitsLSD_length_le (u n : Nat) (h : u < 32 ^ n) :
    (digitsLSD u).length ≤ n := by
  induction u using Nat.strong_induction_on generalizing n with
  | _ u ih =>
    rcases Nat.eq_zero_or_pos u with hu | hu
    · subst hu; simp [digitsLSD, digitsLSDAux_zero]
    · have hne : u ≠ 0 := Nat.pos_iff_ne_zero.mp hu
      have hd : u / 32 < u := Nat.div_lt_self hu (by norm_num)
      rw [digitsLSD_unfold]
      simp only [if_neg hne, List.length_cons]
      cases n with
      | zero => simp at h; omega
      | succ m =>
        have hdiv : u / 32 < 32 ^ m := by
          rw [Nat.div_lt_iff_lt_mul (by norm_num : (0:Nat) < 32)]
          calc u < 32 ^ (m + 1) := h
          _ = 32 ^ m * 32 := pow_succ 32 m
        have := ih (u / 32) hd m hdiv
        omega

lemma digitsLSD_bounds (u : Nat) (hu : u ≠ 0) :
    32 ^ ((digitsLSD u).length - 1) ≤ u ∧ u < 32 ^ (digitsLSD u).length := by
  induction u using Nat.strong_induction_on with
  | _ u ih =>
    have hpos : 0 < u := Nat.pos_of_ne_zero hu
    have hd : u / 32 < u := Nat.div_lt_self hpos (by norm_num)
    rw [digitsLSD_unfold]
    simp only [if_neg hu, List.length_cons]
    rcases Nat.eq_zero_or_pos (u / 32) with hq | hq
    · have hulen : digitsLSD (u / 32) = [] := by
        rw [hq]; rfl
      rw [hulen]
      simp only [List.length_nil]
      have e1 : (32 : Nat) ^ (0 + 1 - 1) = 1 := by norm_num
      have e2 : (32 : Nat) ^ (0 + 1) = 32 := by norm_num
      rw [e1, e2]
      omega
    · have hqne : u / 32 ≠ 0 := Nat.pos_iff_ne_zero.mp hq
      obtain ⟨hlo, hhi⟩ := ih (u / 32) hd hqne
      have hlen : 0 < (digitsLSD (u / 32)).length := by
        rw [digitsLSD_unfold]
        simp [if_neg hqne]
      generalize hn : (digitsLSD (u / 32)).length = n at hlo hhi hlen ⊢
      have hsplit : (32 : Nat) ^ n = 32 * 32 ^ (n - 1) := by
        have hne1 : n = (n - 1) + 1 := by omega
        conv_lhs => rw [hne1]
        rw [pow_succ]
        ring
      constructor
      · have h1 : (32 : Nat) ^ (n + 1 - 1) = 32 ^ n := by simp
        rw [h1, hsplit]
        have h2 : 32 * 32 ^ (n - 1) ≤ 32 * (u / 32) := Nat.mul_le_mul le_rfl hlo
        omega
      · have h3 : u < 32 * (u / 32 + 1) := by omega
        have h4 : 32 * (u / 32 + 1) ≤ 32 * 32 ^ n := Nat.mul_le_mul le_rfl (by omega)
        have h5 : 32 * 32 ^ n = 32 ^ (n + 1) := by rw [pow_succ]; ring
        omega

/-! ## Bit-level arithmetic -/

lemma or_mul_pow_add :
    ∀ (k a b : Nat), b < 2 ^ k → (a * 2 ^ k) ||| b = a * 2 ^ k + b := by
  intro k
  induction k with
  | zero =>
    intro a b hb
    have : b = 0 := by simpa using hb
    subst this
    simp [Nat.or_zero]
  | succ k ih =>
    intro a b hb
    have e2 : 2 ^ (k + 1) = 2 ^ k * 2 := pow_succ 2 k
    have hb2 : b / 2 < 2 ^ k := by
      rw [Nat.div_lt_iff_lt_mul (by norm_num : (0:Nat) < 2)]
      omega
    have hA : Nat.bit false (a * 2 ^ k) = a * 2 ^ (k + 1) := by
      simp [Nat.bit, e2]
      ring
    rcases Nat.mod_two_eq_zero_or_one b with hm | hm
    · have hB : Nat.bit false (b / 2) = b := by
        simp [Nat.bit]
        omega
      calc a * 2 ^ (k + 1) ||| b
          = Nat.bit false (a * 2 ^ k) ||| Nat.bit false (b / 2) := by rw [hA, hB]
      _ = Nat.bit (false || false) ((a * 2 ^ k) ||| (b / 2)) := Nat.lor_bit _ _ _ _
      _ = Nat.bit false (a * 2 ^ k + b / 2) := by rw [ih _ _ hb2]; rfl
      _ = a * 2 ^ (k + 1) + b := by
          simp [Nat.bit, e2]
          ring_nf
          omega
    · have hB : Nat.bit true (b / 2) = b := by
        simp [Nat.bit]
        omega
      calc a * 2 ^ (k + 1) ||| b
          = Nat.bit false (a * 2 ^ k) ||| Nat.bit true (b / 2) := by rw [hA, hB]
      _ = Nat.bit (false || true) ((a * 2 ^ k) ||| (b / 2)) := Nat.lor_bit _ _ _ _
      _ = Nat.bit true (a * 2 ^ k + b / 2) := by rw [ih _ _ hb2]; rfl
      _ = a * 2 ^ (k + 1) + b := by
          simp [Nat.bit, e2]
          ring_nf
          omega

lemma and_hi_zero {r : Nat} (h : r < 2 ^ 59) : r &&& 0xF800000000000000 = 0 := by
  have hm : (0xF800000000000000 : Nat) = 31 <<< 59 := by decide
  apply Nat.eq_of_testBit_eq
  intro i
  rw [Nat.testBit_and, hm, Nat.testBit_shiftLeft, Nat.zero_testBit]
  rcases Nat.lt_or_ge i 59 with hi | hi
  · have : ¬ (i ≥ 59) := by omega
    simp [this]
  · have hr : r.testBit i = false :=
      Nat.testBit_lt_two_pow
        (lt_of_lt_of_le h (Nat.pow_le_pow_right (by norm_num) hi))
    simp [hr]

/-! ## Parsing digit strings -/

lemma charStep_byteOf :
    ∀ d, d < 32 →
      charStep (byteOf d) = CharStep.digit d ∧ byteOf d ≠ 45 ∧ byteOf d ∈ base32chars := by
  decide

lemma parseLoop_digits :
    ∀ (ds : List Nat) (len i r : Nat), (∀ d ∈ ds, d < 32) → accVal r ds < 2 ^ 64 →
      parseLoop len i r (ds.map byteOf) = .ok (accVal r ds) := by
  intro ds
  induction ds with
  | nil =>
    intro len i r _ _
    rfl
  | cons d ds ih =>
    intro len i r hds hfit
    have hd32 : d < 32 := hds d (List.mem_cons_self _ _)
    obtain ⟨hstep, hne45, _⟩ := charStep_byteOf d hd32
    have hr59 : r < 2 ^ 59 := by
      have h1 : r * 32 ^ (d :: ds).length ≤ accVal r (d :: ds) := accVal_lower _ _
      have h2 : (32 : Nat) ≤ 32 ^ (d :: ds).length := by
        simp only [List.length_cons]
        calc (32 : Nat) = 32 ^ 1 := (pow_one 32).symm
        _ ≤ 32 ^ (ds.length + 1) := Nat.pow_le_pow_right (by norm_num) (by omega)
      have h3 : r * 32 ≤ accVal r (d :: ds) := le_trans (Nat.mul_le_mul le_rfl h2) h1
      have e64 : (2 : Nat) ^ 64 = 18446744073709551616 := by norm_num
      have e59 : (2 : Nat) ^ 59 = 576460752303423488 := by norm_num
      omega
    have hguard : ¬ (r &&& 0xF800000000000000 ≠ 0) := by
      rw [and_hi_zero hr59]
      simp
    have hsh : ((r <<< 5) % 2 ^ 64) ||| d = r * 32 + d := by
      rw [Nat.shiftLeft_eq]
      have h32 : r * 2 ^ 5 = r * 32 := by norm_num
      have hlt : r * 2 ^ 5 < 2 ^ 64 := by
        rw [h32]
        have e64 : (2 : Nat) ^ 64 = 18446744073709551616 := by norm_num
        have e59 : (2 : Nat) ^ 59 = 576460752303423488 := by norm_num
        omega
      rw [Nat.mod_eq_of_lt hlt, h32]
      have := or_mul_pow_add 5 r d (by norm_num; omega)
      simpa using this
    simp only [List.map_cons, parseLoop]
    rw [if_neg (by simp [hne45]), hstep]
    simp only [if_neg hguard, hsh]
    rw [show parseLoop len (i + 1) (r * 32 + d) (List.map byteOf ds)
          = .ok (accVal (r * 32 + d) ds) from
        ih len (i + 1) (r * 32 + d) (fun x hx => hds x (List.mem_cons_of_mem _ hx))
          (by rw [← accVal_cons]; exact hfit)]
    rw [accVal_cons]

lemma parse_digits_all (ds : List Nat) (h32 : ∀ d ∈ ds, d < 32)
    (hfit : accVal 0 ds < 2 ^ 64) :
    Parse (ds.map byteOf) = .ok (accVal 0 ds) :=
  parseLoop_digits ds _ 0 0 h32 hfit

lemma accVal_replicate_zero : ∀ m, accVal 0 (List.replicate m 0) = 0 := by
  intro m
  induction m with
  | zero => rfl
  | succ m ih =>
    show accVal 0 (0 :: List.replicate m 0) = 0
    rw [accVal_cons]
    simpa using ih

/-! ## The padded digit string and separator stripping -/

lemma padded13_eq (k : Nat) :
    padded13 k =
      (List.replicate (13 - (digitsLSD k).length) 0 ++ (digitsLSD k).reverse).map byteOf := by
  unfold padded13
  rw [reverseEncode_eq_digits, List.reverse_append, List.map_append, List.map_reverse,
    List.reverse_replicate, List.map_replicate, List.length_map]
  rfl

lemma padded13_mem (k : Nat) : ∀ b ∈ padded13 k, b ∈ base32chars := by
  rw [padded13_eq]
  intro b hb
  obtain ⟨d, hd, hbd⟩ := List.mem_map.mp hb
  have hd32 : d < 32 := by
    rcases List.mem_append.mp hd with h | h
    · have := List.eq_of_mem_replicate h
      omega
    · exact digitsLSD_mem_lt k d (List.mem_reverse.mp h)
  obtain ⟨_, _, hmem⟩ := charStep_byteOf d hd32
  rw [← hbd]
  exact hmem

lemma parse_padded13 (k : Nat) (hk : k < 2 ^ 64) : Parse (padded13 k) = .ok k := by
  rw [padded13_eq]
  have h32 : ∀ d ∈ List.replicate (13 - (digitsLSD k).length) 0 ++ (digitsLSD k).reverse,
      d < 32 := by
    intro d hd
    rcases List.mem_append.mp hd with h | h
    · have := List.eq_of_mem_replicate h
      omega
    · exact digitsLSD_mem_lt k d (List.mem_reverse.mp h)
  have hval : accVal 0 (List.replicate (13 - (digitsLSD k).length) 0 ++ (digitsLSD k).reverse)
      = k := by
    rw [accVal_append, accVal_replicate_zero, accVal_digitsLSD]
    simp
  rw [parse_digits_all _ h32 (by rw [hval]; exact hk), hval]

lemma beginsWith_same_append : ∀ (sep l : List Nat), beginsWith sep (sep ++ l) = true := by
  intro sep
  induction sep with
  | nil => intro l; rfl
  | cons s ss ih =>
    intro l
    simp only [List.cons_append, beginsWith, List.append_eq]
    rw [ih l]
    simp

lemma not_begins_of_head_mem (sep : List Nat) (hsep : ∀ c ∈ sep, c ∉ base32chars)
    (x : Nat) (hx : x ∈ base32chars) (l : List Nat) :
    ¬ (sep ≠ [] ∧ beginsWith sep (x :: l) = true) := by
  rintro ⟨hne, hbw⟩
  cases sep with
  | nil => exact hne rfl
  | cons s0 ss =>
    simp only [beginsWith, Bool.and_eq_true, decide_eq_true_eq] at hbw
    apply hsep s0 (List.mem_cons_self _ _)
    rw [hbw.1]
    exact hx

lemma stripAll_digits (sep : List Nat) (hsep : ∀ c ∈ sep, c ∉ base32chars) :
    ∀ l : List Nat, (∀ d ∈ l, d ∈ base32chars) → stripAll sep l = l := by
  intro l
  induction l with
  | nil => intro _; exact stripAll_nil sep
  | cons x xs ih =>
    intro hl
    rw [stripAll_cons]
    rw [if_neg (not_begins_of_head_mem sep hsep x (hl x (List.mem_cons_self _ _)) xs)]
    rw [ih (fun d hd => hl d (List.mem_cons_of_mem _ hd))]

lemma stripAll_sep_append (sep l : List Nat) (hne : sep ≠ []) :
    stripAll sep (sep ++ l) = stripAll sep l := by
  cases sep with
  | nil => exact absurd rfl hne
  | cons s0 ss =>
    rw [show (s0 :: ss) ++ l = s0 :: (ss ++ l) from rfl, stripAll_cons]
    rw [if_pos ⟨hne, beginsWith_same_append (s0 :: ss) l⟩]
    congr 1
    exact List.drop_left (s0 :: ss) l

lemma stripAll_formatLoop (sep : List Nat) (hne : sep ≠ [])
    (hsep : ∀ c ∈ sep, c ∉ base32chars) :
    ∀ (l : List Nat) (mask : Nat), (∀ d ∈ l, d ∈ base32chars) →
      stripAll sep (formatLoop sep l mask) = l := by
  intro l
  induction l with
  | nil => intro mask _; exact stripAll_nil sep
  | cons x xs ih =>
    intro mask hl
    simp only [formatLoop]
    rw [stripAll_cons]
    rw [if_neg (not_begins_of_head_mem sep hsep x (hl x (List.mem_cons_self _ _)) _)]
    congr 1
    by_cases hm : mask % 2 = 1
    · rw [if_pos hm, stripAll_sep_append sep _ hne]
      exact ih (mask / 2) (fun d hd => hl d (List.mem_cons_of_mem _ hd))
    · rw [if_neg hm, List.nil_append]
      exact ih (mask / 2) (fun d hd => hl d (List.mem_cons_of_mem _ hd))

lemma Format_eq (k : Nat) (gs : Int) (sep : List Nat) :
    Key.Format k gs sep =
      if sep = [] ∨ 13 ≤ (if gs ≤ 0 then 1 else gs.toNat) then padded13 k
      else formatLoop sep (padded13 k)
        (sepMask.getD (if gs ≤ 0 then 1 else gs.toNat) 0) := rfl

/-- Claim C1: round-trip of the text codec.  For every 64-bit key `k`,
`Parse` applied to `Key.String k` returns `k` with no error; and for every
group size and every separator free of base-32 digit characters, parsing
`Key.Format k groupSize sep` with all separator occurrences removed
returns `k` with no error. -/
theorem parse_roundtrip (k : Nat) (hk : k < 2 ^ 64) :
    Parse (Key.String k) = .ok k ∧
    ∀ (gs : Int) (sep : List Nat), (∀ c ∈ sep, c ∉ base32chars) →
      Parse (stripAll sep (Key.Format k gs sep)) = .ok k := by
  constructor
  · by_cases hk0 : k = 0
    · subst hk0
      decide
    · unfold Key.String
      rw [if_neg hk0, reverseEncode_eq_digits, ← List.map_reverse]
      have h32 : ∀ d ∈ (digitsLSD k).reverse, d < 32 :=
        fun d hd => digitsLSD_mem_lt k d (List.mem_reverse.mp hd)
      have hval : accVal 0 (digitsLSD k).reverse = k := by
        rw [accVal_digitsLSD]
        simp
      rw [parse_digits_all _ h32 (by rw [hval]; exact hk), hval]
  · intro gs sep hsep
    rw [Format_eq]
    generalize (if gs ≤ 0 then 1 else gs.toNat) = g
    split
    · rw [stripAll_digits sep hsep _ (padded13_mem k)]
      exact parse_padded13 k hk
    · rename_i hcond
      push_neg at hcond
      rw [stripAll_formatLoop sep hcond.1 hsep _ _ (padded13_mem k)]
      exact parse_padded13 k hk

/-- Witness for `parse_roundtrip`: key 5, group size 4, separator "-". -/
theorem parse_roundtrip_witness :
    Parse (Key.String 5) = .ok 5 ∧
    Parse (stripAll [45] (Key.Format 5 4 [45])) = .ok 5 :=
  ⟨(parse_roundtrip 5 (by norm_num)).1,
   (parse_roundtrip 5 (by norm_num)).2 4 [45] (by decide)⟩

/-- Claim C3 (code bug): the byte 0x80 = 128 passes the character range
check `'0' <= ch && ch <= 128`, but `ch - '0' = 80` indexes the 80-entry
table `decode32map` out of bounds, so `Parse` faults at runtime instead of
returning a recoverable error. -/
theorem parse_byte128_faults : Parse [128] = .oob := by decide

/-- Claim C4 (code bug): the input "1" followed by the byte 0x80 triggers
none of the claimed rejection conditions, yet `Parse` neither succeeds nor
reports an error: the decode-table lookup for byte 0x80 is out of
bounds. -/
theorem parse_conditions_byte128_faults : Parse [49, 128] = .oob := by decide

/-- Counterexample to claim C7: on the input "1!" the non-base-32 error is
accompanied by the partially decoded key 1 (the digit consumed before the
failure), not by `Invalid`. -/
theorem parse_error_key_not_invalid :
    Parse [49, 33] = .errChar 1 ∧ (1 : Nat) ≠ Invalid := by decide

lemma parseLoop_errFit :
    ∀ (s : List Nat) (len i r k : Nat),
      parseLoop len i r s = .errFit k → k = Invalid := by
  intro s
  induction s with
  | nil =>
    intro len i r k h
    exact ParseOutcome.noConfusion h
  | cons ch rest ih =>
    intro len i r k h
    simp only [parseLoop] at h
    split at h
    · exact ih _ _ _ _ h
    · split at h
      · split at h
        · injection h with h1
          exact h1.symm
        · exact ih _ _ _ _ h
      · exact ParseOutcome.noConfusion h
      · exact ParseOutcome.noConfusion h

/-- Claim C7 (amended): whenever `Parse` reports the does-not-fit error,
the accompanying key is `Invalid`; the non-base-32 error instead carries
the accumulation of the digits consumed before the failure, which can
differ from `Invalid`. -/
theorem parse_errors_key :
    (∀ (s : List Nat) (k : Nat), Parse s = .errFit k → k = Invalid) ∧
    Parse [49, 33] = .errChar 1 ∧ (1 : Nat) ≠ Invalid :=
  ⟨fun s k h => parseLoop_errFit s _ 0 0 k h, by decide, by decide⟩

/-- Witness for `parse_errors_key`: fourteen 'Z' digits overflow and the
error value is `Invalid`. -/
theorem parse_errors_key_witness :
    Parse (List.replicate 14 90) = .errFit Invalid ∧ (Invalid : Nat) = Invalid :=
  ⟨by decide, parse_errors_key.1 (List.replicate 14 90) Invalid (by decide)⟩

/-! ## Format and grouping -/

lemma specFormatLSD_eq (k : Nat) (gs : Int) (sep : List Nat) :
    specFormatLSD k gs sep =
      if sep = [] ∨ 13 ≤ (if gs ≤ 0 then 1 else gs.toNat) then padded13 k
      else specInsertLSD (if gs ≤ 0 then 1 else gs.toNat) sep 0 (padded13 k) := rfl

lemma formatLoop_spec (g : Nat) (sep : List Nat) :
    ∀ (l : List Nat) (i mask : Nat),
      (∀ j, mask / 2 ^ j % 2 = if (12 - (i + j)) % g = 0 ∧ i + j < 12 then 1 else 0) →
      formatLoop sep l mask = specInsertLSD g sep i l := by
  intro l
  induction l with
  | nil =>
    intro i mask _
    rfl
  | cons b rest ih =>
    intro i mask hmask
    simp only [formatLoop, specInsertLSD]
    congr 1
    congr 1
    · have h0 := hmask 0
      simp only [pow_zero, Nat.div_one, Nat.add_zero] at h0
      by_cases hc : (12 - i) % g = 0 ∧ i < 12
      · rw [if_pos hc] at h0
        rw [if_pos h0, if_pos hc]
      · rw [if_neg hc] at h0
        rw [if_neg (by omega), if_neg hc]
    · apply ih (i + 1) (mask / 2)
      intro j
      rw [Nat.div_div_eq_div_mul]
      have e : (2 : Nat) * 2 ^ j = 2 ^ (j + 1) := by
        rw [pow_succ]
        ring
      rw [e]
      have e2 : i + 1 + j = i + (j + 1) := by omega
      rw [e2]
      exact hmask (j + 1)

lemma sepMask_bits (g : Nat) (hg1 : 1 ≤ g) (hg2 : g < 13) :
    ∀ j, sepMask.getD g 0 / 2 ^ j % 2 = if (12 - j) % g = 0 ∧ j < 12 then 1 else 0 := by
  intro j
  rcases Nat.lt_or_ge j 13 with hj | hj
  · exact (by decide :
      ∀ g', g' < 13 → 1 ≤ g' → ∀ j', j' < 13 →
        sepMask.getD g' 0 / 2 ^ j' % 2 = if (12 - j') % g' = 0 ∧ j' < 12 then 1 else 0)
      g hg2 hg1 j hj
  · have hmask : sepMask.getD g 0 < 2 ^ 13 :=
      (by decide : ∀ g', g' < 13 → sepMask.getD g' 0 < 2 ^ 13) g hg2
    have hz : sepMask.getD g 0 / 2 ^ j = 0 :=
      Nat.div_eq_of_lt (lt_of_lt_of_le hmask (Nat.pow_le_pow_right (by norm_num) hj))
    rw [hz, if_neg (by rintro ⟨_, h⟩; omega)]

lemma padded13_length (k : Nat) (hk : k < 2 ^ 64) : (padded13 k).length = 13 := by
  unfold padded13
  rw [List.length_reverse, List.length_append, List.length_replicate]
  have hlen : (reverseEncode k).length ≤ 13 := by
    rw [reverseEncode_eq_digits, List.length_map]
    exact digitsLSD_length_le k 13 (lt_of_lt_of_le hk (by norm_num))
  omega

/-- Claim C5 (amended): `Format` produces the fixed 13-digit zero-padded
base-32 form, inserting the separator after digit groups of `groupSize`
consecutive digits counted from the **least**-significant digit;
`groupSize <= 0` is treated as 1, and an empty separator or
`groupSize >= 13` yields the bare 13-digit string; in particular
`Key.Format 0 4 "-" = "0-0000-0000-0000"`. -/
theorem format_groups_lsd (k : Nat) (hk : k < 2 ^ 64) :
    (padded13 k).length = 13 ∧
    (∀ (gs : Int) (sep : List Nat), Key.Format k gs sep = specFormatLSD k gs sep) ∧
    Key.Format 0 4 [45] = [48, 45, 48, 48, 48, 48, 45, 48, 48, 48, 48, 45, 48, 48, 48, 48] := by
  refine ⟨padded13_length k hk, ?_, by decide⟩
  intro gs sep
  rw [Format_eq, specFormatLSD_eq]
  generalize hg : (if gs ≤ 0 then 1 else gs.toNat) = g
  have hg1 : 1 ≤ g := by
    rw [← hg]
    split
    · norm_num
    · omega
  split
  · rfl
  · rename_i hcond
    push_neg at hcond
    exact formatLoop_spec g sep (padded13 k) 0 (sepMask.getD g 0)
      (fun j => by simpa using sepMask_bits g hg1 (by omega) j)

/-- Witness for `format_groups_lsd` at the all-ones key, group size 4,
separator "-". -/
theorem format_groups_lsd_witness :
    Key.Format (2 ^ 64 - 1) 4 [45] = specFormatLSD (2 ^ 64 - 1) 4 [45] :=
  (format_groups_lsd (2 ^ 64 - 1) (by norm_num)).2.1 4 [45]

/-- Counterexample to claim C5 as stated: grouping counted from the most
significant digit would render the zero key with group size 4 as
"0000-0000-0000-0", but `Format` yields "0-0000-0000-0000": the groups are
counted from the least significant digit. -/
theorem format_not_msd_grouping :
    Key.Format 0 4 [45] = [48, 45, 48, 48, 48, 48, 45, 48, 48, 48, 48, 45, 48, 48, 48, 48] ∧
    specFormatMSD 0 4 [45] ≠ Key.Format 0 4 [45] := by decide

/-! ## Generator arithmetic -/

lemma New_inv (b : Nat) (g : Generator) (h : New b = some g) :
    b ≤ 20 ∧ g = ⟨0, 0, b, 2 ^ b⟩ := by
  unfold New MaxAppBits at h
  by_cases hb : 20 < b
  · rw [if_pos hb] at h
    exact Option.noConfusion h
  · rw [if_neg hb] at h
    injection h with h1
    constructor
    · omega
    · rw [← h1, Nat.one_shiftLeft]

lemma makeKey_eq (b ts a s : Nat) (hb : b ≤ 22) (hts : ts < 2 ^ 42) (ha : a < 2 ^ b)
    (hs : s < 2 ^ (22 - b)) :
    makeKey b ts a s = ts * 2 ^ 22 + a * 2 ^ (22 - b) + s := by
  have hpow : (2 : Nat) ^ b * 2 ^ (22 - b) = 2 ^ 22 := by
    rw [← pow_add]
    congr 1
    omega
  have hA : a * 2 ^ (22 - b) + s < 2 ^ 22 := by
    have h1 : a + 1 ≤ 2 ^ b := ha
    have h2 : (a + 1) * 2 ^ (22 - b) ≤ 2 ^ b * 2 ^ (22 - b) := Nat.mul_le_mul h1 le_rfl
    rw [hpow] at h2
    have h3 : (a + 1) * 2 ^ (22 - b) = a * 2 ^ (22 - b) + 2 ^ (22 - b) := by ring
    have h4 : 0 < 2 ^ (22 - b) := Nat.pos_pow_of_pos _ (by norm_num)
    omega
  have hts1 : ts + 1 ≤ 2 ^ 42 := hts
  have hts2 : (ts + 1) * 2 ^ 22 ≤ 2 ^ 42 * 2 ^ 22 := Nat.mul_le_mul hts1 le_rfl
  have hts3 : (ts + 1) * 2 ^ 22 = ts * 2 ^ 22 + 2 ^ 22 := by ring
  have e64 : (2 : Nat) ^ 42 * 2 ^ 22 = 2 ^ 64 := by norm_num
  have h22 : (2 : Nat) ^ 22 ≤ 2 ^ 64 := Nat.pow_le_pow_right (by norm_num) (by norm_num)
  unfold makeKey
  rw [show randomBits = 22 from rfl]
  rw [Nat.shiftLeft_eq, Nat.shiftLeft_eq]
  rw [Nat.mod_eq_of_lt (show ts * 2 ^ 22 < 2 ^ 64 by omega)]
  rw [Nat.mod_eq_of_lt (show a * 2 ^ (22 - b) < 2 ^ 64 by omega)]
  rw [or_mul_pow_add 22 ts (a * 2 ^ (22 - b)) (by omega)]
  have hfact : ts * 2 ^ 22 + a * 2 ^ (22 - b) = (ts * 2 ^ b + a) * 2 ^ (22 - b) := by
    rw [add_mul, mul_assoc, hpow]
  rw [hfact, or_mul_pow_add (22 - b) (ts * 2 ^ b + a) s hs, ← hfact]
  exact Nat.mod_eq_of_lt (by omega)

lemma ts_eq (m : Nat) (hm : m < 2 ^ 64)
    (hts : (m + 2 ^ 64 - epochAdjust) % 2 ^ 64 ≤ maxTimeStamp) :
    epochAdjust ≤ m ∧ (m + 2 ^ 64 - epochAdjust) % 2 ^ 64 = m - epochAdjust ∧
    m - epochAdjust < 2 ^ 42 := by
  simp only [epochAdjust, maxTimeStamp, timestampBits] at hts ⊢
  have e64 : (2 : Nat) ^ 64 = 18446744073709551616 := by norm_num
  have e42 : (2 : Nat) ^ 42 = 4398046511104 := by norm_num
  rcases Nat.lt_or_ge m 1717200000000 with hlt | hge
  · exfalso
    have h1 : m + 2 ^ 64 - 1717200000000 < 2 ^ 64 := by omega
    rw [Nat.mod_eq_of_lt h1] at hts
    omega
  · have h1 : m + 2 ^ 64 - 1717200000000 = (m - 1717200000000) + 2 ^ 64 := by omega
    rw [h1, Nat.add_mod_right] at hts ⊢
    rw [Nat.mod_eq_of_lt (by omega : m - 1717200000000 < 2 ^ 64)] at hts ⊢
    exact ⟨hge, rfl, by omega⟩

lemma createTail_ok_inv (gen' : Generator) (a m s k : Nat) (gf : Generator)
    (h : createTail gen' a m s = .ok k gf) :
    gf = gen' ∧ s < 2 ^ (22 - gen'.appBits) ∧
    (m + 2 ^ 64 - epochAdjust) % 2 ^ 64 ≤ maxTimeStamp ∧
    k = makeKey gen'.appBits ((m + 2 ^ 64 - epochAdjust) % 2 ^ 64) a s := by
  unfold createTail at h
  rw [Nat.one_shiftLeft, show randomBits = 22 from rfl] at h
  by_cases hs : s < 2 ^ (22 - gen'.appBits)
  · rw [if_pos hs] at h
    by_cases hts : maxTimeStamp < (m + 2 ^ 64 - epochAdjust) % 2 ^ 64
    · rw [if_pos hts] at h
      exact CreateResult.noConfusion h
    · rw [if_neg hts] at h
      injection h with h1 h2
      exact ⟨h2.symm, hs, by omega, h1.symm⟩
  · rw [if_neg hs] at h
    exact CreateResult.noConfusion h

lemma Create_ok_inv (g : Generator) (a m k : Nat) (g' : Generator)
    (h : g.Create a m = .ok k g') :
    ∃ seq,
      g'.appBits = g.appBits ∧ g'.appMax = g.appMax ∧
      seq < 2 ^ (22 - g.appBits) ∧
      (m + 2 ^ 64 - epochAdjust) % 2 ^ 64 ≤ maxTimeStamp ∧
      k = makeKey g.appBits ((m + 2 ^ 64 - epochAdjust) % 2 ^ 64) a seq ∧
      ((g.lastTS < m ∧ seq = 0 ∧ g'.lastTS = m ∧ g'.nextSeq = 1) ∨
       (m ≤ g.lastTS ∧ seq = g.nextSeq ∧ g'.lastTS = g.lastTS ∧
         g'.nextSeq = g.nextSeq + 1)) := by
  unfold Generator.Create at h
  by_cases hfa : 0 < a ∧ g.appMax ≤ a
  · rw [if_pos hfa] at h
    exact CreateResult.noConfusion h
  · rw [if_neg hfa] at h
    by_cases hfresh : g.lastTS < m
    · rw [if_pos hfresh] at h
      obtain ⟨hgf, hs, hts, hk⟩ := createTail_ok_inv _ a m 0 k g' h
      subst hgf
      exact ⟨0, rfl, rfl, hs, hts, hk, Or.inl ⟨hfresh, rfl, rfl, rfl⟩⟩
    · rw [if_neg hfresh] at h
      obtain ⟨hgf, hs, hts, hk⟩ := createTail_ok_inv _ a m g.nextSeq k g' h
      subst hgf
      exact ⟨g.nextSeq, rfl, rfl, hs, hts, hk, Or.inr ⟨by omega, rfl, rfl, rfl⟩⟩

lemma AppID_KeySeq_makeKey (b ts a s : Nat) (hb : b ≤ 20) (hts : ts < 2 ^ 42)
    (ha : a < 2 ^ b) (hs : s < 2 ^ (22 - b)) (g : Generator) (hgb : g.appBits = b) :
    g.AppID (makeKey b ts a s) = a ∧ g.KeySeq (makeKey b ts a s) = s := by
  have hk := makeKey_eq b ts a s (by omega) hts ha hs
  have hA : a * 2 ^ (22 - b) + s < 2 ^ 22 := by
    have hpow : (2 : Nat) ^ b * 2 ^ (22 - b) = 2 ^ 22 := by
      rw [← pow_add]
      congr 1
      omega
    have h1 : a + 1 ≤ 2 ^ b := ha
    have h2 : (a + 1) * 2 ^ (22 - b) ≤ 2 ^ b * 2 ^ (22 - b) := Nat.mul_le_mul h1 le_rfl
    rw [hpow] at h2
    have h3 : (a + 1) * 2 ^ (22 - b) = a * 2 ^ (22 - b) + 2 ^ (22 - b) := by ring
    have h4 : 0 < 2 ^ (22 - b) := Nat.pos_pow_of_pos _ (by norm_num)
    omega
  have hmask : (0x3fffff : Nat) = 2 ^ 22 - 1 := by norm_num
  have hlow : makeKey b ts a s &&& 0x3fffff = a * 2 ^ (22 - b) + s := by
    rw [hk, hmask, Nat.and_pow_two_sub_one_eq_mod]
    have hre : ts * 2 ^ 22 + a * 2 ^ (22 - b) + s
        = 2 ^ 22 * ts + (a * 2 ^ (22 - b) + s) := by ring
    rw [hre, Nat.mul_add_mod, Nat.mod_eq_of_lt hA]
  constructor
  · unfold Generator.AppID
    rw [show randomBits = 22 from rfl, hgb]
    by_cases hb0 : 0 < b
    · rw [if_pos hb0, hlow, Nat.shiftRight_eq_div_pow]
      rw [mul_comm a (2 ^ (22 - b)), Nat.mul_add_div (Nat.pos_pow_of_pos _ (by norm_num)),
        Nat.div_eq_of_lt hs]
      omega
    · rw [if_neg hb0]
      have : b = 0 := by omega
      subst this
      have : a = 0 := by
        have : a < 1 := by simpa using ha
        omega
      omega
  · unfold Generator.KeySeq
    rw [show randomBits = 22 from rfl, hgb, hlow, Nat.one_shiftLeft,
      Nat.and_pow_two_sub_one_eq_mod, mul_comm a (2 ^ (22 - b)), Nat.mul_add_mod,
      Nat.mod_eq_of_lt hs]

/-- Claim C9: configuring a generator with a discriminator width above 20
is fatal; `Create` with `appID >= 1 <<< appBits` is fatal; construction
with `appBits <= 20` succeeds, and a `Create` attempt with an in-range
discriminator at a clock reading within the representable range never
aborts. -/
theorem generator_fatal_conditions :
    (∀ b, MaxAppBits < b → New b = none) ∧
    (∀ b, b ≤ MaxAppBits → (New b).isSome = true) ∧
    (∀ b g a m, New b = some g → 2 ^ b ≤ a → g.Create a m = .fatalApp) ∧
    (∀ (g : Generator) (a m : Nat), g.appMax = 2 ^ g.appBits → a < g.appMax →
      epochAdjust ≤ m → m ≤ epochAdjust + maxTimeStamp →
      isAbort (g.Create a m) = false) := by
  refine ⟨?_, ?_, ?_, ?_⟩
  · intro b hb
    unfold New
    rw [if_pos hb]
  · intro b hb
    have hb' : b ≤ 20 := hb
    unfold New MaxAppBits
    rw [if_neg (by omega : ¬ (20 < b))]
    rfl
  · intro b g a m hnew ha
    obtain ⟨hb, hg⟩ := New_inv b g hnew
    subst hg
    unfold Generator.Create
    rw [if_pos ⟨by have := Nat.pos_pow_of_pos b (show 0 < 2 by norm_num); omega, ha⟩]
  · intro g a m hwf ha he hm
    have htsv : (m + 2 ^ 64 - epochAdjust) % 2 ^ 64 ≤ maxTimeStamp := by
      simp only [epochAdjust, maxTimeStamp, timestampBits] at he hm ⊢
      have e64 : (2 : Nat) ^ 64 = 18446744073709551616 := by norm_num
      have e42 : (2 : Nat) ^ 42 = 4398046511104 := by norm_num
      have h3 : m + 2 ^ 64 - 1717200000000 = (m - 1717200000000) + 2 ^ 64 := by omega
      rw [h3, Nat.add_mod_right, Nat.mod_eq_of_lt (by omega)]
      omega
    have hnofa : ¬ (0 < a ∧ g.appMax ≤ a) := by omega
    unfold Generator.Create createTail
    rw [if_neg hnofa]
    by_cases hfresh : g.lastTS < m
    · rw [if_pos hfresh]
      split
      · rw [if_neg (by omega)]
        rfl
      · rfl
    · rw [if_neg hfresh]
      split
      · rw [if_neg (by omega)]
        rfl
      · rfl

/-- Witness for `generator_fatal_conditions`: width 21 is rejected, width
7 is accepted, `Create 128` on a width-7 generator is fatal, and
`Create 127` at the epoch is not an abort. -/
theorem generator_fatal_conditions_witness :
    New 21 = none ∧ (New 7).isSome = true ∧
    Generator.Create ⟨0, 0, 7, 128⟩ 128 epochAdjust = .fatalApp ∧
    isAbort (Generator.Create ⟨0, 0, 7, 128⟩ 127 epochAdjust) = false :=
  ⟨generator_fatal_conditions.1 21 (by decide),
   generator_fatal_conditions.2.1 7 (by decide),
   generator_fatal_conditions.2.2.1 7 ⟨0, 0, 7, 128⟩ 128 epochAdjust (by decide) (by norm_num),
   generator_fatal_conditions.2.2.2 ⟨0, 0, 7, 128⟩ 127 epochAdjust (by decide) (by decide)
     le_rfl (by decide)⟩

/-- Claim C6: discriminator and sequence fidelity.  For a generator from
`New appBits` (`appBits <= 20`) and an in-range discriminator, `AppID`
recovers the discriminator of any key produced by `Create`, and `AppID` /
`KeySeq` recover the two fields of any key assembled as
`(ts <<< 22) ||| (appID <<< (22 - appBits)) ||| seq` from in-range
fields. -/
theorem appid_keyseq_fidelity :
    (∀ (g : Generator) (a m k : Nat) (g' : Generator),
      g.appMax = 2 ^ g.appBits → g.appBits ≤ 20 → a < g.appMax →
      g.Create a m = .ok k g' → m < 2 ^ 64 →
      g.AppID k = a ∧ g'.AppID k = a) ∧
    (∀ b (g : Generator) (ts a s : Nat), New b = some g →
      ts < 2 ^ 42 → a < 2 ^ b → s < 2 ^ (22 - b) →
      g.AppID (makeKey b ts a s) = a ∧ g.KeySeq (makeKey b ts a s) = s) := by
  constructor
  · intro g a m k g' hwf hb ha hok hm
    obtain ⟨seq, hgb, _, hseq, hts, hk, _⟩ := Create_ok_inv g a m k g' hok
    obtain ⟨_, hteq, htlt⟩ := ts_eq m hm hts
    rw [hteq] at hk
    subst hk
    have ha2 : a < 2 ^ g.appBits := by omega
    constructor
    · exact (AppID_KeySeq_makeKey g.appBits (m - epochAdjust) a seq hb htlt ha2 hseq g rfl).1
    · exact (AppID_KeySeq_makeKey g.appBits (m - epochAdjust) a seq hb htlt ha2 hseq g' hgb).1
  · intro b g ts a s hnew hts ha hs
    obtain ⟨hb, hg⟩ := New_inv b g hnew
    subst hg
    exact AppID_KeySeq_makeKey b ts a s hb hts ha hs _ rfl

/-- Witness for `appid_keyseq_fidelity`: a width-7 generator, `Create 5`
at the epoch, and an assembled key with `ts = 3`, `appID = 5`,
`seq = 2`. -/
theorem appid_keyseq_fidelity_witness :
    Generator.AppID ⟨0, 0, 7, 128⟩ (makeKey 7 3 5 2) = 5 ∧
    Generator.KeySeq ⟨0, 0, 7, 128⟩ (makeKey 7 3 5 2) = 2 :=
  appid_keyseq_fidelity.2 7 ⟨0, 0, 7, 128⟩ 3 5 2 (by decide) (by norm_num) (by norm_num)
    (by norm_num)

/-! ## Monotonicity of key creation -/

lemma app_seq_lt (b a s : Nat) (hb : b ≤ 22) (ha : a < 2 ^ b) (hs : s < 2 ^ (22 - b)) :
    a * 2 ^ (22 - b) + s < 2 ^ 22 := by
  have hpow : (2 : Nat) ^ b * 2 ^ (22 - b) = 2 ^ 22 := by
    rw [← pow_add]
    congr 1
    omega
  have h1 : a + 1 ≤ 2 ^ b := ha
  have h2 : (a + 1) * 2 ^ (22 - b) ≤ 2 ^ b * 2 ^ (22 - b) := Nat.mul_le_mul h1 le_rfl
  rw [hpow] at h2
  have h3 : (a + 1) * 2 ^ (22 - b) = a * 2 ^ (22 - b) + 2 ^ (22 - b) := by ring
  have h4 : 0 < 2 ^ (22 - b) := Nat.pos_pow_of_pos _ (by norm_num)
  omega

lemma key_lt_core (t1 t2 A s1 s2 : Nat) (hA1 : A + s1 < 2 ^ 22)
    (h : t1 < t2 ∨ (t1 ≤ t2 ∧ s1 < s2)) :
    t1 * 2 ^ 22 + A + s1 < t2 * 2 ^ 22 + A + s2 := by
  rcases h with h | ⟨hle, hlt⟩
  · have h1 : (t1 + 1) * 2 ^ 22 ≤ t2 * 2 ^ 22 := Nat.mul_le_mul (by omega) le_rfl
    have h2 : (t1 + 1) * 2 ^ 22 = t1 * 2 ^ 22 + 2 ^ 22 := by ring
    omega
  · have h1 : t1 * 2 ^ 22 ≤ t2 * 2 ^ 22 := Nat.mul_le_mul hle le_rfl
    omega

lemma create_pair_mono (g g1 g2 : Generator) (a m1 m2 k1 k2 : Nat)
    (hwf : g.appMax = 2 ^ g.appBits) (hb : g.appBits ≤ 20) (ha : a < g.appMax)
    (hm1 : m1 < 2 ^ 64) (hm2 : m2 < 2 ^ 64) (hm : m1 ≤ m2)
    (h1 : g.Create a m1 = .ok k1 g1) (h2 : g1.Create a m2 = .ok k2 g2) :
    k1 < k2 := by
  obtain ⟨s1, hgb1, hgm1, hs1, hts1, hk1, hcase1⟩ := Create_ok_inv g a m1 k1 g1 h1
  obtain ⟨s2, hgb2, hgm2, hs2, hts2, hk2, hcase2⟩ := Create_ok_inv g1 a m2 k2 g2 h2
  obtain ⟨he1, hteq1, htlt1⟩ := ts_eq m1 hm1 hts1
  obtain ⟨he2, hteq2, htlt2⟩ := ts_eq m2 hm2 hts2
  rw [hteq1] at hk1
  rw [hteq2] at hk2
  rw [hgb1] at hk2 hs2
  have ha2 : a < 2 ^ g.appBits := by omega
  have hK1 : k1 = (m1 - epochAdjust) * 2 ^ 22 + a * 2 ^ (22 - g.appBits) + s1 := by
    rw [hk1, makeKey_eq g.appBits (m1 - epochAdjust) a s1 (by omega) htlt1 ha2 hs1]
  have hK2 : k2 = (m2 - epochAdjust) * 2 ^ 22 + a * 2 ^ (22 - g.appBits) + s2 := by
    rw [hk2, makeKey_eq g.appBits (m2 - epochAdjust) a s2 (by omega) htlt2 ha2 hs2]
  have hA1 : a * 2 ^ (22 - g.appBits) + s1 < 2 ^ 22 :=
    app_seq_lt g.appBits a s1 (by omega) ha2 hs1
  have hlast : m1 ≤ g1.lastTS := by
    rcases hcase1 with ⟨_, _, h, _⟩ | ⟨hle, _, h, _⟩ <;> omega
  rw [hK1, hK2]
  apply key_lt_core _ _ _ _ _ hA1
  rcases hcase2 with ⟨hfresh2, hseq2, _, _⟩ | ⟨hstale2, hseq2, _, _⟩
  · left
    omega
  · right
    refine ⟨by omega, ?_⟩
    rcases hcase1 with ⟨_, hseq1, _, hnext1⟩ | ⟨_, hseq1, _, hnext1⟩ <;> omega

lemma CreateRun_cons_inv (g : Generator) (a m : Nat) (ms : List Nat) (ks : List Nat)
    (gf : Generator) (h : CreateRun g a (m :: ms) = some (ks, gf)) :
    ∃ k g1 ks', g.Create a m = .ok k g1 ∧ CreateRun g1 a ms = some (ks', gf) ∧
      ks = k :: ks' := by
  cases hok : g.Create a m with
  | ok k g1 =>
    simp only [CreateRun, hok] at h
    cases hrun : CreateRun g1 a ms with
    | none =>
      rw [hrun] at h
      exact Option.noConfusion h
    | some p =>
      obtain ⟨ks', gf'⟩ := p
      rw [hrun] at h
      injection h with h1
      obtain ⟨h2, h3⟩ := Prod.mk.injEq .. ▸ h1
      exact ⟨k, g1, ks', rfl, by rw [hrun, h3], h2.symm⟩
  | retry g' =>
    simp only [CreateRun, hok] at h
    exact Option.noConfusion h
  | fatalApp =>
    simp only [CreateRun, hok] at h
    exact Option.noConfusion h
  | fatalTS =>
    simp only [CreateRun, hok] at h
    exact Option.noConfusion h

lemma CreateRun_chain :
    ∀ (ms : List Nat) (g : Generator) (a : Nat) (ks : List Nat) (gf : Generator),
      g.appMax = 2 ^ g.appBits → g.appBits ≤ 20 → a < g.appMax →
      List.Chain' (· ≤ ·) ms → (∀ m ∈ ms, m < 2 ^ 64) →
      CreateRun g a ms = some (ks, gf) →
      List.Chain' (· < ·) ks := by
  intro ms
  induction ms with
  | nil =>
    intro g a ks gf _ _ _ _ _ h
    simp only [CreateRun] at h
    injection h with h1
    have h2 : ks = [] := (Prod.mk.injEq .. ▸ h1).1.symm
    rw [h2]
    exact List.chain'_nil
  | cons m ms ih =>
    intro g a ks gf hwf hb ha hchain hlt h
    obtain ⟨k, g1, ks', hok, hrun, hks⟩ := CreateRun_cons_inv g a m ms ks gf h
    obtain ⟨s, hgb1, hgm1, _⟩ := Create_ok_inv g a m k g1 hok
    have hwf1 : g1.appMax = 2 ^ g1.appBits := by rw [hgb1, hgm1, hwf]
    have hb1 : g1.appBits ≤ 20 := by rw [hgb1]; exact hb
    have ha1 : a < g1.appMax := by rw [hgm1]; exact ha
    have hchain2 := (List.chain'_cons'.mp hchain).2
    have hlt2 : ∀ x ∈ ms, x < 2 ^ 64 := fun x hx => hlt x (List.mem_cons_of_mem _ hx)
    have htail := ih g1 a ks' gf hwf1 hb1 ha1 hchain2 hlt2 hrun
    rw [hks]
    apply List.chain'_cons'.mpr
    refine ⟨?_, htail⟩
    intro k2 hk2
    cases ms with
    | nil =>
      simp only [CreateRun] at hrun
      injection hrun with h1
      have h2 : ks' = [] := (Prod.mk.injEq .. ▸ h1).1.symm
      rw [h2] at hk2
      exact Option.noConfusion hk2
    | cons m2 ms' =>
      obtain ⟨k2', g2, ks'', hok2, _, hks'⟩ := CreateRun_cons_inv g1 a m2 ms' ks' gf hrun
      rw [hks'] at hk2
      have hk2' : k2 = k2' := by
        simp only [List.head?_cons, Option.mem_def, Option.some.injEq] at hk2
        exact hk2.symm
      rw [hk2']
      have hm12 : m ≤ m2 := by
        have := (List.chain'_cons'.mp hchain).1
        exact this m2 (by simp)
      exact create_pair_mono g g1 g2 a m m2 k k2' hwf hb ha
        (hlt m (by simp)) (hlt m2 (by simp)) hm12 hok hok2

/-- Claim C2 (amended): for a single generator and a **fixed** in-range
discriminator, a sequence of successful `Create` attempts at
non-decreasing clock readings yields strictly increasing keys (any
call-ordered pair).  With varying discriminators the keys need not
increase (see the counterexample). -/
theorem create_monotonic_fixed_app (g : Generator) (a : Nat) (ms ks : List Nat)
    (gf : Generator)
    (hwf : g.appMax = 2 ^ g.appBits) (hb : g.appBits ≤ 20) (ha : a < g.appMax)
    (hchain : List.Chain' (· ≤ ·) ms) (hm : ∀ m ∈ ms, m < 2 ^ 64)
    (hrun : CreateRun g a ms = some (ks, gf)) :
    List.Pairwise (· < ·) ks := by
  rw [← List.chain'_iff_pairwise]
  exact CreateRun_chain ms g a ks gf hwf hb ha hchain hm hrun

/-- Witness for `create_monotonic_fixed_app`: a width-0 generator, two
creations in the same millisecond. -/
theorem create_monotonic_fixed_app_witness :
    CreateRun ⟨0, 0, 0, 1⟩ 0 [epochAdjust, epochAdjust]
      = some ([0, 1], ⟨epochAdjust, 2, 0, 1⟩) ∧
    List.Pairwise (· < ·) [0, 1] :=
  ⟨by decide,
   create_monotonic_fixed_app ⟨0, 0, 0, 1⟩ 0 [epochAdjust, epochAdjust] [0, 1]
     ⟨epochAdjust, 2, 0, 1⟩ (by decide) (by decide) (by decide)
     (List.chain'_cons.mpr ⟨le_rfl, List.chain'_singleton _⟩)
     (by decide) (by decide)⟩

/-- Counterexample to claim C2 as stated: with varying in-range
discriminators the keys need not increase.  On a fresh width-1 generator,
`Create 1` followed by `Create 0` in the same millisecond yields
2097152 and then 1. -/
theorem create_not_monotonic_varying_app :
    New 1 = some ⟨0, 0, 1, 2⟩ ∧
    Generator.Create ⟨0, 0, 1, 2⟩ 1 epochAdjust = .ok (2 ^ 21) ⟨epochAdjust, 1, 1, 2⟩ ∧
    Generator.Create ⟨epochAdjust, 1, 1, 2⟩ 0 epochAdjust = .ok 1 ⟨epochAdjust, 2, 1, 2⟩ ∧
    ¬ (2 ^ 21 < 1) := by decide

/-! ## Canonical string form -/

lemma digitsLSD_getLast (k : Nat) (hk : k ≠ 0) :
    ∃ d, (digitsLSD k).getLast? = some d ∧ d ≠ 0 ∧ d < 32 := by
  induction k using Nat.strong_induction_on with
  | _ k ih =>
    have hpos : 0 < k := Nat.pos_of_ne_zero hk
    have hd : k / 32 < k := Nat.div_lt_self hpos (by norm_num)
    rw [digitsLSD_unfold, if_neg hk]
    rcases Nat.eq_zero_or_pos (k / 32) with hq | hq
    · have hnil : digitsLSD (k / 32) = [] := by rw [hq]; rfl
      rw [hnil]
      refine ⟨k % 32, rfl, ?_, Nat.mod_lt _ (by norm_num)⟩
      have h32 : k < 32 := by omega
      rw [Nat.mod_eq_of_lt h32]
      exact hk
    · have hqne : k / 32 ≠ 0 := Nat.pos_iff_ne_zero.mp hq
      obtain ⟨d, hlast, hdne, hdlt⟩ := ih (k / 32) hd hqne
      refine ⟨d, ?_, hdne, hdlt⟩
      have hexp : digitsLSD (k / 32) = k / 32 % 32 :: digitsLSD (k / 32 / 32) := by
        rw [digitsLSD_unfold, if_neg hqne]
      rw [hexp] at hlast ⊢
      rw [List.getLast?_cons_cons]
      exact hlast

/-- Claim C8: `String` is the shortest base-32 text form with no leading
zero digit, at most 13 characters; the zero key renders as "0"; the
all-ones key renders as "FZZZZZZZZZZZZ". -/
theorem string_canonical (k : Nat) (hk : k < 2 ^ 64) :
    Key.String 0 = [48] ∧
    (k ≠ 0 →
      Key.String k = ((digitsLSD k).map byteOf).reverse ∧
      (Key.String k).headD 0 ≠ 48 ∧
      32 ^ ((Key.String k).length - 1) ≤ k ∧ k < 32 ^ (Key.String k).length) ∧
    (Key.String k).length ≤ 13 ∧
    Key.String (2 ^ 64 - 1) = [70, 90, 90, 90, 90, 90, 90, 90, 90, 90, 90, 90, 90] := by
  have hstr : k ≠ 0 → Key.String k = ((digitsLSD k).map byteOf).reverse := by
    intro hk0
    unfold Key.String
    rw [if_neg hk0, reverseEncode_eq_digits]
  have hlen : k ≠ 0 → (Key.String k).length = (digitsLSD k).length := by
    intro hk0
    rw [hstr hk0, List.length_reverse, List.length_map]
  refine ⟨by decide, ?_, ?_, by decide⟩
  · intro hk0
    obtain ⟨hlo, hhi⟩ := digitsLSD_bounds k hk0
    refine ⟨hstr hk0, ?_, by rw [hlen hk0]; exact hlo, by rw [hlen hk0]; exact hhi⟩
    rw [hstr hk0]
    obtain ⟨d, hlast, hdne, hdlt⟩ := digitsLSD_getLast k hk0
    have hmap : ((digitsLSD k).map byteOf).getLast? = some (byteOf d) := by
      rw [List.getLast?_map, hlast]
      rfl
    have hhead : ((digitsLSD k).map byteOf).reverse.head? = some (byteOf d) := by
      rw [List.head?_reverse, hmap]
    rw [List.headD_eq_head?_getD, hhead]
    exact (by decide : ∀ d', d' < 32 → d' ≠ 0 → byteOf d' ≠ 48) d hdlt hdne
  · by_cases hk0 : k = 0
    · subst hk0
      decide
    · rw [hlen hk0]
      exact digitsLSD_length_le k 13 (lt_of_lt_of_le hk (by norm_num))

/-- Witness for `string_canonical` at key 32 ("10"). -/
theorem string_canonical_witness :
    Key.String 32 = ((digitsLSD 32).map byteOf).reverse ∧ (Key.String 32).length ≤ 13 :=
  ⟨((string_canonical 32 (by norm_num)).2.1 (by norm_num)).1,
   (string_canonical 32 (by norm_num)).2.2.1⟩

/-! ## Typo tolerance -/

lemma canonByte_high (c : Nat) (hc : 123 ≤ c) : canonByte c = c := by
  unfold canonByte foldCase
  rw [if_neg (by omega : ¬ (97 ≤ c ∧ c ≤ 122))]
  rw [if_neg (by omega : ¬ (c = 73 ∨ c = 76)), if_neg (by omega : ¬ c = 79)]

lemma charStep_canon (c : Nat) : charStep c = charStep (canonByte c) := by
  rcases Nat.lt_or_ge c 123 with hc | hc
  · exact (by decide : ∀ c', c' < 123 → charStep c' = charStep (canonByte c')) c hc
  · rw [canonByte_high c hc]

lemma canon_45 (c : Nat) : canonByte c = 45 ↔ c = 45 := by
  constructor
  · intro h
    rcases Nat.lt_or_ge c 123 with hc | hc
    · exact (by decide : ∀ c', c' < 123 → canonByte c' = 45 → c' = 45) c hc h
    · rw [canonByte_high c hc] at h
      exact h
  · intro h
    subst h
    decide

lemma parseLoop_canon :
    ∀ (s s' : List Nat) (len i r : Nat), s.map canonByte = s'.map canonByte →
      parseLoop len i r s = parseLoop len i r s' := by
  intro s
  induction s with
  | nil =>
    intro s' len i r h
    cases s' with
    | nil => rfl
    | cons b bs => simp at h
  | cons ch rest ih =>
    intro s' len i r h
    cases s' with
    | nil => simp at h
    | cons ch' rest' =>
      simp only [List.map_cons, List.cons.injEq] at h
      obtain ⟨hc, hrest⟩ := h
      have h45 : ch = 45 ↔ ch' = 45 := by
        constructor
        · intro hx
          apply (canon_45 ch').mp
          rw [← hc]
          exact (canon_45 ch).mpr hx
        · intro hx
          apply (canon_45 ch).mp
          rw [hc]
          exact (canon_45 ch').mpr hx
      simp only [parseLoop]
      by_cases hch : ch = 45 ∧ 0 < i ∧ i + 1 < len
      · rw [if_pos hch, if_pos ⟨h45.mp hch.1, hch.2⟩]
        exact ih rest' len (i + 1) r hrest
      · rw [if_neg hch, if_neg (fun hx => hch ⟨h45.mpr hx.1, hx.2⟩)]
        rw [charStep_canon ch, hc, ← charStep_canon ch']
        cases hstep : charStep ch' with
        | digit v =>
          dsimp only
          by_cases hg : r &&& 0xF800000000000000 ≠ 0
          · rw [if_pos hg, if_pos hg]
          · rw [if_neg hg, if_neg hg]
            exact ih rest' len (i + 1) _ hrest
        | bad => rfl
        | oob => rfl

/-- Claim C10: typo tolerance and case-insensitivity.  Decoding is
invariant under the decode table's folding: two inputs with the same
canonical image (lower case folded to upper case, I and L to 1, O to 0)
parse to the same outcome, the same key or the same rejection. -/
theorem parse_typo_tolerance (s s' : List Nat)
    (h : s.map canonByte = s'.map canonByte) :
    Parse s = Parse s' := by
  unfold Parse
  have hlen : s.length = s'.length := by
    have h1 := congrArg List.length h
    simpa using h1
  rw [hlen]
  exact parseLoop_canon s s' s'.length 0 0 h

/-- Witness for `parse_typo_tolerance`: "Io" parses like "10", namely to
key 32. -/
theorem parse_typo_tolerance_witness :
    Parse [73, 111] = Parse [49, 48] ∧ Parse [49, 48] = .ok 32 :=
  ⟨parse_typo_tolerance [73, 111] [49, 48] (by decide), by decide⟩

end Snow

section Sanity

open Snow

example : decode32map.length = 80 := by decide
example : Parse [48] = .ok 0 := by decide
example : Parse [70, 90, 90, 90, 90, 90, 90, 90, 90, 90, 90, 90, 90] = .ok (2 ^ 64 - 1) := by decide
example : Parse [128] = .oob := by decide
example : Parse [49, 33] = .errChar 1 := by decide
example : Parse [45, 48] = .errChar 0 := by decide
example : Parse [48, 45, 48] = .ok 0 := by decide
example : Parse [90, 90, 90, 90, 90, 90, 90, 90, 90, 90, 90, 90, 90, 90] = .errFit Invalid := by decide
example : Key.String 0 = [48] := by decide
example : Key.String (2 ^ 64 - 1) = [70, 90, 90, 90, 90, 90, 90, 90, 90, 90, 90, 90, 90] := by decide
example : stripAll [45] (Key.Format 0 4 [45]) =
    [48, 48, 48, 48, 48, 48, 48, 48, 48, 48, 48, 48, 48] := by decide
example : New 21 = none := by decide
example : Generator.Create ⟨0, 0, 1, 2⟩ 1 epochAdjust = .ok (2 ^ 21) ⟨epochAdjust, 1, 1, 2⟩ := by decide
example : Generator.Create ⟨epochAdjust, 1, 1, 2⟩ 0 epochAdjust = .ok 1 ⟨epochAdjust, 2, 1, 2⟩ := by decide
example : Key.Format 0 4 [45] =
    [48, 45, 48, 48, 48, 48, 45, 48, 48, 48, 48, 45, 48, 48, 48, 48] := by decide
example : Key.Format 11939515935325016758 5 [45] =
    [65, 66, 67, 45, 68, 69, 70, 71, 72, 45, 74, 75, 77, 78, 80] := by decide

end Sanity
